import Mathlib

/-!
Verification of the box blur of `image-blur.go`.

A shallow embedding of the Go source and the properties of its blur engine.

Modelling conventions.

* A Go `[][]Pixel` is a `List (List Pixel)`; rows do not share storage with each other.
* Go's `int` is a 64-bit two's-complement integer.  Channel additions wrap (`goAdd`);
  on values that fit, the result is the exact sum.  The neighbour counter `total` and the
  index arithmetic `x+a`, `y+b` are kept exact: they are bounded by the mask size and the
  slice lengths.
* A run-time panic (index out of range, integer division by zero) is `none`.
* `blurredPixels := pixels` copies a slice header, so both names denote the same storage.
  That storage is the state threaded through the two loops of `blurImagePixels`: every
  `blurredPixels[i][j] = ...` is visible to the later reads of `pixels`.
* `MASK_SIZE` is a compile-time constant of the source.  `processBlurMaskWith` and
  `blurImagePixelsWith` take it as a parameter; `processBlurMask` and `blurImagePixels` are
  their instances at `MASK_SIZE = 3`.
* `image.Decode` and the `image.Image` value are outside the source: `getImagePixels` takes
  what `Decode` returned and sees the image through `Bounds().Max` and `At(x, y).RGBA()`.
-/

namespace ImageBlur

/-! ## Data model -/

/-- The `Pixel` struct: four `int` fields. -/
structure Pixel where
  R : Int
  G : Int
  B : Int
  A : Int
deriving DecidableEq, Repr, Inhabited

/-- A pixel matrix, `[][]Pixel`. -/
abbrev Grid := List (List Pixel)

/-- Blur mask size (`const MASK_SIZE = 3`). -/
def MASK_SIZE : Nat := 3

/-! ## Go integer arithmetic -/

/-- Width of Go's `int` on 64-bit targets. -/
def intBits : Nat := 64

/-- Largest `int`. -/
def maxInt : Int := 2 ^ (intBits - 1) - 1

/-- Smallest `int`. -/
def minInt : Int := -(2 ^ (intBits - 1))

/-- Two's-complement wrap-around of an exact integer into the range of `int`. -/
def wrapInt (x : Int) : Int :=
  (x + 2 ^ (intBits - 1)) % 2 ^ intBits - 2 ^ (intBits - 1)

/-- Go's `+` on `int`. -/
def goAdd (a b : Int) : Int := wrapInt (a + b)

/-- Go's `/` on `int`: truncated division, a panic when the divisor is zero. -/
def goDiv (a b : Int) : Option Int :=
  if b = 0 then none else some (wrapInt (Int.tdiv a b))

/-! ## Slice indexing -/

/-- The index expression `s[k]` for an `int` index: a panic outside `0 ≤ k < len(s)`. -/
def index {α : Type} (s : List α) (k : Int) : Option α :=
  if 0 ≤ k then s[k.toNat]? else none

/-- The index expression `pixels[k][l]`. -/
def index2 (pixels : Grid) (k l : Int) : Option Pixel :=
  (index pixels k).bind fun row => index row l

/-- The assignment `pixels[i][j] = v`: a panic when the cell does not exist. -/
def setPixel (pixels : Grid) (i j : Nat) (v : Pixel) : Option Grid :=
  match pixels[i]? with
  | none => none
  | some row => if j < row.length then some (pixels.set i (row.set j v)) else none

/-! ## getImagePixels -/

/-- A colour as `RGBA()` returns it: four `uint32` values, 16 bits of precision each. -/
structure Color where
  r : Nat
  g : Nat
  b : Nat
  a : Nat
deriving DecidableEq, Repr

/-- What `getImagePixels` uses of a decoded `image.Image`: the corner `Bounds().Max` and
the colour `At(x, y).RGBA()` at a point. -/
structure Image where
  maxX : Int
  maxY : Int
  At : Int → Int → Color

/-- Fill a Pixel struct with provided rgba (`getImagePixelFromRGBA`). -/
def getImagePixelFromRGBA (r g b a : Nat) : Pixel :=
  ⟨((r / 257 : Nat) : Int), ((g / 257 : Nat) : Int), ((b / 257 : Nat) : Int),
   ((a / 257 : Nat) : Int)⟩

/-- The function `getImagePixels`, given what `image.Decode` returned: the image and the
error.  The result is the pair of return values. -/
def getImagePixels (img : Image) (err : Option String) : Grid × Option String :=
  match err with
  | some e => ([], some e)
  | none =>
    let width := img.maxX
    let height := img.maxY
    ((List.range height.toNat).foldl
      (fun (pixelMatrix : Grid) (i : Nat) =>
        pixelMatrix ++
          [(List.range width.toNat).foldl
            (fun (row : List Pixel) (j : Nat) =>
              row ++ [getImagePixelFromRGBA (img.At i j).r (img.At i j).g (img.At i j).b
                (img.At i j).a])
            []])
      [], none)

/-! ## processBlurMask -/

/-- The local variables `averagePixel` and `total` of `processBlurMask`. -/
structure MaskAcc where
  averagePixel : Pixel
  total : Int
deriving DecidableEq, Repr

/-- The value of `offset` for a mask size. -/
def maskOffset (maskSize : Nat) : Int :=
  if maskSize % 2 = 0 then ((maskSize / 2 : Nat) : Int) else (((maskSize - 1) / 2 : Nat) : Int)

/-- The three additions and `total++` for one neighbour. -/
def addNeighbour (s : MaskAcc) (p : Pixel) : MaskAcc :=
  { averagePixel :=
      { R := goAdd s.averagePixel.R p.R
        G := goAdd s.averagePixel.G p.G
        B := goAdd s.averagePixel.B p.B
        A := s.averagePixel.A }
    total := s.total + 1 }

/-- The body of the inner `for b` loop: the two bounds tests, then the accumulation. -/
def maskBody (x y : Int) (pixels : Grid) (a b : Nat) (s : MaskAcc) : Option MaskAcc :=
  if 0 ≤ x + a ∧ x + a < pixels.length then
    match index pixels (x + a) with
    | none => none
    | some row =>
      if 0 ≤ y + b ∧ y + b < row.length then
        match index row (y + b) with
        | none => none
        | some p => some (addNeighbour s p)
      else some s
  else some s

/-- The nested `for a` / `for b` loops. -/
def maskLoop (maskSize : Nat) (x y : Int) (pixels : Grid) (s : MaskAcc) : Option MaskAcc :=
  (List.range maskSize).foldlM
    (fun s a => (List.range maskSize).foldlM (fun s b => maskBody x y pixels a b s) s) s

/-- The function `processBlurMask`, with the mask size as a parameter. -/
def processBlurMaskWith (maskSize : Nat) (i j : Int) (pixels : Grid) : Option Pixel :=
  let offset := maskOffset maskSize
  let x := i - offset
  let y := j - offset
  match maskLoop maskSize x y pixels ⟨⟨0, 0, 0, 0⟩, 0⟩ with
  | none => none
  | some acc =>
    match goDiv acc.averagePixel.R acc.total, goDiv acc.averagePixel.G acc.total,
        goDiv acc.averagePixel.B acc.total, index2 pixels i j with
    | some r, some g, some b, some p => some ⟨r, g, b, p.A⟩
    | _, _, _, _ => none

/-- The function `processBlurMask` as compiled, with `MASK_SIZE = 3`. -/
def processBlurMask (i j : Int) (pixels : Grid) : Option Pixel :=
  processBlurMaskWith MASK_SIZE i j pixels

/-! ## blurImagePixels -/

/-- The loop body `blurredPixels[i][j] = processBlurMask(i, j, pixels)` on the shared
storage. -/
def blurCell (maskSize : Nat) (i j : Nat) (pixels : Grid) : Option Grid :=
  match processBlurMaskWith maskSize i j pixels with
  | none => none
  | some p => setPixel pixels i j p

/-- The inner loop `for j := range pixels[i]`. -/
def blurRow (maskSize : Nat) (pixels : Grid) (i : Nat) : Option Grid :=
  match pixels[i]? with
  | none => none
  | some row => (List.range row.length).foldlM (fun s j => blurCell maskSize i j s) pixels

/-- What a call of `blurImagePixels` leaves behind: the two return values and the
argument matrix as the caller finds it afterwards.  `blurredPixels := pixels` makes the
returned matrix and the argument one storage, so both are the final loop state. -/
structure BlurResult where
  blurredPixels : Grid
  err : Option String
  pixels : Grid
deriving DecidableEq, Repr

/-- The function `blurImagePixels`, with the mask size as a parameter.  `none` is a panic;
the `err` field is the returned `error`, `none` for `nil`. -/
def blurImagePixelsWith (maskSize : Nat) (pixels : Grid) : Option BlurResult :=
  match (List.range pixels.length).foldlM (blurRow maskSize) pixels with
  | none => none
  | some storage => some { blurredPixels := storage, err := none, pixels := storage }

/-- The function `blurImagePixels` as compiled, with `MASK_SIZE = 3`. -/
def blurImagePixels (pixels : Grid) : Option BlurResult :=
  blurImagePixelsWith MASK_SIZE pixels

/-! ## Definitions used to state the properties -/

/-- The in-bounds cells of the window whose top-left corner is `(x, y)`, in scan order. -/
def windowCells (maskSize : Nat) (x y : Int) (pixels : Grid) : List Pixel :=
  (List.range maskSize).flatMap fun (a : Nat) =>
    (List.range maskSize).filterMap fun (b : Nat) => index2 pixels (x + (a : Int)) (y + (b : Int))

/-- The average of a list of channel values in Go's arithmetic: the wrapped sum,
divided (truncating) by the number of values. -/
def channelAverage (xs : List Int) : Int :=
  Int.tdiv (wrapInt xs.sum) xs.length

/-- The window of cell `(i, j)` for a mask size. -/
def neighbourhood (maskSize : Nat) (i j : Int) (pixels : Grid) : List Pixel :=
  windowCells maskSize (i - maskOffset maskSize) (j - maskOffset maskSize) pixels

/-- The cell at row `i`, column `j`, when it exists. -/
def cellAt (pixels : Grid) (i j : Nat) : Option Pixel :=
  match pixels[i]? with
  | none => none
  | some row => row[j]?

/-- The row lengths of a matrix. -/
def shape (pixels : Grid) : List Nat := pixels.map List.length

/-- The pixel at a cell, the zero pixel when the cell does not exist. -/
def pixelOr (pixels : Grid) (k l : Nat) : Pixel := (cellAt pixels k l).getD default

/-- The matrix with the shape of `G` whose cells before `(i, j)` in row-major order are
taken from `out` and whose other cells, `(i, j)` included, are taken from `G`. -/
def mixedGrid (G out : Grid) (i j : Nat) : Grid :=
  G.mapIdx fun k row => row.mapIdx fun l g =>
    if k < i ∨ (k = i ∧ l < j) then pixelOr out k l else g

/-- The invariant of the two loops at position `(i, j)`: the storage has the shape of the
input `G`; the cells not yet visited hold their input value; every visited cell holds what
`processBlurMask` returned on the storage as it was when that cell was visited, which is
the mix of visited cells of the current storage and unvisited cells of `G`. -/
def TraceInv (maskSize : Nat) (G s : Grid) (i j : Nat) : Prop :=
  shape s = shape G ∧
  (∀ k l, ¬ (k < i ∨ (k = i ∧ l < j)) → cellAt s k l = cellAt G k l) ∧
  (∀ k l row, (k < i ∨ (k = i ∧ l < j)) → G[k]? = some row → l < row.length →
    ∃ p, cellAt s k l = some p ∧
      processBlurMaskWith maskSize k l (mixedGrid G s k l) = some p)

/-- The exact truncated average of a list of channel values. -/
def exactAverage (xs : List Int) : Int :=
  Int.tdiv xs.sum xs.length

/-- The box blur as the specification describes it: every output cell is computed from the
input matrix alone, per channel the exact truncated average of the clipped neighbourhood,
with the alpha of the input cell. -/
def boxBlur (maskSize : Nat) (G : Grid) : Grid :=
  G.mapIdx fun i row => row.mapIdx fun j p =>
    ⟨exactAverage ((neighbourhood maskSize i j G).map Pixel.R),
     exactAverage ((neighbourhood maskSize i j G).map Pixel.G),
     exactAverage ((neighbourhood maskSize i j G).map Pixel.B), p.A⟩

/-- A 2x2 matrix with red values 0, 4 in the first row and 4, 8 in the second. -/
def aliasGrid : Grid :=
  [[⟨0, 0, 0, 255⟩, ⟨4, 0, 0, 255⟩], [⟨4, 0, 0, 255⟩, ⟨8, 0, 0, 255⟩]]

/-- The 3x3 matrix with red values 1..9 in row-major order, green and blue 0. -/
def grid123 : Grid :=
  [[⟨1, 0, 0, 255⟩, ⟨2, 0, 0, 255⟩, ⟨3, 0, 0, 255⟩],
   [⟨4, 0, 0, 255⟩, ⟨5, 0, 0, 255⟩, ⟨6, 0, 0, 255⟩],
   [⟨7, 0, 0, 255⟩, ⟨8, 0, 0, 255⟩, ⟨9, 0, 0, 255⟩]]

/-- A uniform 1x2 matrix whose red value is `2^62`. -/
def overflowGrid : Grid :=
  [[⟨4611686018427387904, 0, 0, 0⟩, ⟨4611686018427387904, 0, 0, 0⟩]]

/-- A 2x2 image whose only non-black pixel is the one at `x = 1, y = 0`. -/
def image2x2 : Image :=
  ⟨2, 2, fun x y => if x = 1 ∧ y = 0 then ⟨2570, 0, 0, 65535⟩ else ⟨0, 0, 0, 65535⟩⟩

/-! ## Lemmas and theorems -/

set_option maxRecDepth 20000

theorem index_none_iff {α : Type} (s : List α) (k : Int) :
    index s k = none ↔ ¬ (0 ≤ k ∧ k < s.length) := by
  unfold index
  by_cases h : 0 ≤ k
  · simp only [h, if_true, true_and, List.getElem?_eq_none_iff]
    omega
  · simp [h]

theorem index_natCast {α : Type} (s : List α) (k : Nat) : index s (k : Int) = s[k]? := by
  simp [index]

/-- One pass of the inner loop body either adds the neighbour that exists at
`(x+a, y+b)` or leaves the accumulator as it is; it never panics. -/
theorem maskBody_eq (x y : Int) (pixels : Grid) (a b : Nat) (s : MaskAcc) :
    maskBody x y pixels a b s =
      some (match index2 pixels (x + a) (y + b) with
            | some p => addNeighbour s p
            | none => s) := by
  unfold maskBody index2
  by_cases h1 : 0 ≤ x + a ∧ x + a < pixels.length
  · rw [if_pos h1]
    cases hr : index pixels (x + a) with
    | none => exact absurd h1 ((index_none_iff _ _).1 hr)
    | some row =>
      simp only [Option.some_bind]
      by_cases h2 : 0 ≤ y + b ∧ y + b < row.length
      · rw [if_pos h2]
        cases hp : index row (y + b) with
        | none => exact absurd h2 ((index_none_iff _ _).1 hp)
        | some p => rfl
      · rw [if_neg h2, (index_none_iff _ _).2 h2]
  · rw [if_neg h1, (index_none_iff _ _).2 h1]
    rfl

theorem foldlM_maskBody (x y : Int) (pixels : Grid) (a : Nat) (bs : List Nat) (s : MaskAcc) :
    bs.foldlM (fun s b => maskBody x y pixels a b s) s =
      some ((bs.filterMap fun (b : Nat) =>
        index2 pixels (x + (a : Int)) (y + (b : Int))).foldl addNeighbour s) := by
  induction bs generalizing s with
  | nil => rfl
  | cons b bs ih =>
    rw [List.foldlM_cons, maskBody_eq]
    simp only [Option.bind_eq_bind, Option.some_bind]
    rw [ih]
    cases h : index2 pixels (x + a) (y + b) <;> simp [List.filterMap_cons, h]

theorem foldlM_foldlM_maskBody (x y : Int) (pixels : Grid) (as bs : List Nat) (s : MaskAcc) :
    as.foldlM (fun s a => bs.foldlM (fun s b => maskBody x y pixels a b s) s) s =
      some ((as.flatMap fun (a : Nat) =>
        bs.filterMap fun (b : Nat) =>
          index2 pixels (x + (a : Int)) (y + (b : Int))).foldl addNeighbour s) := by
  induction as generalizing s with
  | nil => rfl
  | cons a as ih =>
    rw [List.foldlM_cons, foldlM_maskBody]
    simp only [Option.bind_eq_bind, Option.some_bind]
    rw [ih, List.flatMap_cons, List.foldl_append]

theorem maskLoop_eq (maskSize : Nat) (x y : Int) (pixels : Grid) (s : MaskAcc) :
    maskLoop maskSize x y pixels s =
      some ((windowCells maskSize x y pixels).foldl addNeighbour s) :=
  foldlM_foldlM_maskBody x y pixels _ _ s

theorem wrapInt_of_range (x : Int) (h1 : minInt ≤ x) (h2 : x ≤ maxInt) : wrapInt x = x := by
  unfold wrapInt
  unfold minInt maxInt at *
  simp only [intBits] at *
  norm_num at *
  omega

theorem wrapInt_range (x : Int) : minInt ≤ wrapInt x ∧ wrapInt x ≤ maxInt := by
  unfold wrapInt minInt maxInt
  simp only [intBits]
  norm_num
  omega

theorem wrapInt_add_wrapInt (x y : Int) : wrapInt (wrapInt x + y) = wrapInt (x + y) := by
  unfold wrapInt
  simp only [intBits]
  norm_num
  omega

theorem foldl_goAdd (xs : List Int) (a : Int) :
    xs.foldl goAdd (wrapInt a) = wrapInt (a + xs.sum) := by
  induction xs generalizing a with
  | nil => simp
  | cons x xs ih =>
    have h : goAdd (wrapInt a) x = wrapInt (a + x) := wrapInt_add_wrapInt a x
    rw [List.foldl_cons, List.sum_cons, h, ih, add_assoc]

theorem wrapInt_zero : wrapInt 0 = 0 := by
  unfold wrapInt
  simp only [intBits]
  norm_num

/-- Truncated division of an `int` by a positive count stays an `int`. -/
theorem wrapInt_tdiv (x n : Int) (hn : 0 < n) : wrapInt (Int.tdiv (wrapInt x) n) = Int.tdiv (wrapInt x) n := by
  have hr := wrapInt_range x
  apply wrapInt_of_range
  · rcases le_or_lt 0 (wrapInt x) with h | h
    · have := Int.tdiv_nonneg h hn.le
      unfold minInt; simp only [intBits]; norm_num; omega
    · have h1 : Int.tdiv (wrapInt x) n = -(Int.tdiv (-(wrapInt x)) n) := by
        rw [Int.neg_tdiv, neg_neg]
      have h2 : Int.tdiv (-(wrapInt x)) n ≤ -(wrapInt x) := by
        rw [Int.tdiv_eq_ediv (by omega) hn.le]
        exact Int.ediv_le_self _ (by omega)
      omega
  · rcases le_or_lt 0 (wrapInt x) with h | h
    · have : Int.tdiv (wrapInt x) n ≤ wrapInt x := by
        rw [Int.tdiv_eq_ediv h hn.le]
        exact Int.ediv_le_self _ h
      omega
    · have h1 : Int.tdiv (wrapInt x) n = -(Int.tdiv (-(wrapInt x)) n) := by
        rw [Int.neg_tdiv, neg_neg]
      have h2 : 0 ≤ Int.tdiv (-(wrapInt x)) n := Int.tdiv_nonneg (by omega) hn.le
      unfold maxInt; simp only [intBits]; norm_num; omega

theorem foldl_addNeighbour_total (ps : List Pixel) (s : MaskAcc) :
    (ps.foldl addNeighbour s).total = s.total + ps.length := by
  induction ps generalizing s with
  | nil => simp
  | cons p ps ih =>
    rw [List.foldl_cons, ih]
    simp only [addNeighbour, List.length_cons, Nat.cast_add, Nat.cast_one]
    omega

theorem foldl_addNeighbour_R (ps : List Pixel) (s : MaskAcc) :
    (ps.foldl addNeighbour s).averagePixel.R = (ps.map Pixel.R).foldl goAdd s.averagePixel.R := by
  induction ps generalizing s with
  | nil => rfl
  | cons p ps ih => rw [List.foldl_cons, ih]; rfl

theorem foldl_addNeighbour_G (ps : List Pixel) (s : MaskAcc) :
    (ps.foldl addNeighbour s).averagePixel.G = (ps.map Pixel.G).foldl goAdd s.averagePixel.G := by
  induction ps generalizing s with
  | nil => rfl
  | cons p ps ih => rw [List.foldl_cons, ih]; rfl

theorem foldl_addNeighbour_B (ps : List Pixel) (s : MaskAcc) :
    (ps.foldl addNeighbour s).averagePixel.B = (ps.map Pixel.B).foldl goAdd s.averagePixel.B := by
  induction ps generalizing s with
  | nil => rfl
  | cons p ps ih => rw [List.foldl_cons, ih]; rfl

theorem foldl_goAdd_zero (xs : List Int) : xs.foldl goAdd 0 = wrapInt xs.sum := by
  have h := foldl_goAdd xs 0
  rwa [wrapInt_zero, zero_add] at h

theorem goDiv_wrapInt (x : Int) (n : Nat) (hn : 0 < n) :
    goDiv (wrapInt x) (n : Int) = some (Int.tdiv (wrapInt x) n) := by
  unfold goDiv
  have h : (n : Int) ≠ 0 := by omega
  rw [if_neg h, wrapInt_tdiv _ _ (by omega)]

/-- The result of `processBlurMask` at a cell that exists and has at least one in-bounds
neighbour: per channel the average of the neighbourhood, and the alpha of the cell. -/
theorem processBlurMaskWith_eq (maskSize : Nat) (i j : Int) (pixels : Grid) (p : Pixel)
    (hp : index2 pixels i j = some p) (hne : neighbourhood maskSize i j pixels ≠ []) :
    processBlurMaskWith maskSize i j pixels =
      some ⟨channelAverage ((neighbourhood maskSize i j pixels).map Pixel.R),
            channelAverage ((neighbourhood maskSize i j pixels).map Pixel.G),
            channelAverage ((neighbourhood maskSize i j pixels).map Pixel.B), p.A⟩ := by
  unfold processBlurMaskWith
  simp only [maskLoop_eq]
  have hlen : 0 < (neighbourhood maskSize i j pixels).length := List.length_pos.2 hne
  unfold neighbourhood at hne hlen ⊢
  simp only [foldl_addNeighbour_total, foldl_addNeighbour_R, foldl_addNeighbour_G,
    foldl_addNeighbour_B, foldl_goAdd_zero, zero_add, hp]
  rw [goDiv_wrapInt _ _ hlen, goDiv_wrapInt _ _ hlen, goDiv_wrapInt _ _ hlen]
  simp [channelAverage]

/-- With no in-bounds neighbour the three divisions are by zero. -/
theorem processBlurMaskWith_nil (maskSize : Nat) (i j : Int) (pixels : Grid)
    (hne : neighbourhood maskSize i j pixels = []) :
    processBlurMaskWith maskSize i j pixels = none := by
  unfold processBlurMaskWith
  simp only [maskLoop_eq]
  unfold neighbourhood at hne
  simp [hne, goDiv]

theorem index2_natCast (pixels : Grid) (i j : Nat) :
    index2 pixels (i : Int) (j : Int) = cellAt pixels i j := by
  unfold index2 cellAt
  rw [index_natCast]
  cases pixels[i]? with
  | none => rfl
  | some row => simp [index_natCast]

theorem shape_getElem? (s : Grid) (i : Nat) : (shape s)[i]? = (s[i]?).map List.length := by
  simp [shape]

theorem row_of_shape {s G : Grid} (h : shape s = shape G) {i : Nat} {row : List Pixel}
    (hrow : G[i]? = some row) : ∃ r, s[i]? = some r ∧ r.length = row.length := by
  have h1 := shape_getElem? s i
  rw [h, shape_getElem?, hrow] at h1
  cases hs : s[i]? with
  | none => rw [hs] at h1; simp at h1
  | some r => rw [hs] at h1; simp at h1; exact ⟨r, rfl, h1.symm⟩

theorem length_of_shape {s G : Grid} (h : shape s = shape G) : s.length = G.length := by
  have := congrArg List.length h
  simpa [shape] using this

theorem maskOffset_lt (maskSize : Nat) (h : 0 < maskSize) :
    ∃ o : Nat, maskOffset maskSize = (o : Int) ∧ o < maskSize := by
  unfold maskOffset
  split
  · exact ⟨maskSize / 2, rfl, by omega⟩
  · exact ⟨(maskSize - 1) / 2, rfl, by omega⟩

/-- For a positive mask size the cell itself is one of its in-bounds neighbours. -/
theorem mem_neighbourhood_self (maskSize : Nat) (h : 0 < maskSize) (pixels : Grid)
    (i j : Nat) (p : Pixel) (hp : cellAt pixels i j = some p) :
    p ∈ neighbourhood maskSize i j pixels := by
  obtain ⟨o, ho, hlt⟩ := maskOffset_lt maskSize h
  unfold neighbourhood windowCells
  rw [List.mem_flatMap]
  refine ⟨o, List.mem_range.2 hlt, ?_⟩
  rw [List.mem_filterMap]
  refine ⟨o, List.mem_range.2 hlt, ?_⟩
  rw [ho, sub_add_cancel, sub_add_cancel, index2_natCast, hp]

theorem setPixel_eq {s : Grid} {i j : Nat} {row : List Pixel} (hrow : s[i]? = some row)
    (hj : j < row.length) (v : Pixel) : setPixel s i j v = some (s.set i (row.set j v)) := by
  unfold setPixel
  rw [hrow]
  simp [hj]

theorem shape_set (s : Grid) (i j : Nat) (row : List Pixel) (hrow : s[i]? = some row)
    (v : Pixel) : shape (s.set i (row.set j v)) = shape s := by
  unfold shape
  apply List.ext_getElem?
  intro k
  simp only [List.getElem?_map, List.getElem?_set]
  by_cases hk : i = k
  · subst hk
    have hi : i < s.length := by
      rcases Nat.lt_or_ge i s.length with h | h
      · exact h
      · rw [List.getElem?_eq_none_iff.2 h] at hrow; simp at hrow
    simp [hi, hrow]
  · simp [hk]

/-- The result of one loop body at a cell that exists. -/
theorem blurCell_eq (maskSize : Nat) (h : 0 < maskSize) (s : Grid) (i j : Nat)
    (row : List Pixel) (hrow : s[i]? = some row) (hj : j < row.length) :
    ∃ p, processBlurMaskWith maskSize i j s = some p ∧ cellAt s i j = some row[j] ∧
      neighbourhood maskSize i j s ≠ [] ∧
      p = ⟨channelAverage ((neighbourhood maskSize i j s).map Pixel.R),
           channelAverage ((neighbourhood maskSize i j s).map Pixel.G),
           channelAverage ((neighbourhood maskSize i j s).map Pixel.B), row[j].A⟩ ∧
      blurCell maskSize i j s = some (s.set i (row.set j p)) := by
  have hc : cellAt s i j = some row[j] := by
    unfold cellAt
    rw [hrow]
    simp [hj]
  have hi2 : index2 s (i : Int) (j : Int) = some row[j] := by rw [index2_natCast, hc]
  have hne : neighbourhood maskSize i j s ≠ [] :=
    List.ne_nil_of_mem (mem_neighbourhood_self maskSize h s i j _ hc)
  have hp := processBlurMaskWith_eq maskSize i j s _ hi2 hne
  refine ⟨_, hp, hc, hne, rfl, ?_⟩
  unfold blurCell
  rw [hp]
  exact setPixel_eq hrow hj _

theorem blur_loop (maskSize : Nat) (G : Grid) (Inv : Grid → Nat → Nat → Prop)
    (hshape : ∀ s i j, Inv s i j → shape s = shape G)
    (hstep : ∀ s i j row, Inv s i j → G[i]? = some row → j < row.length →
      ∃ s', blurCell maskSize i j s = some s' ∧ Inv s' i (j + 1))
    (hrow : ∀ s i row, G[i]? = some row → Inv s i row.length → Inv s (i + 1) 0)
    (h0 : Inv G 0 0) :
    ∃ out, blurImagePixelsWith maskSize G = some ⟨out, none, out⟩ ∧ Inv out G.length 0 := by
  have inner : ∀ i row, G[i]? = some row → ∀ n, n ≤ row.length → ∀ s, Inv s i 0 →
      ∃ s', (List.range n).foldlM (fun s j => blurCell maskSize i j s) s = some s' ∧
        Inv s' i n := by
    intro i row hi n
    induction n with
    | zero => intro _ s hs; exact ⟨s, rfl, hs⟩
    | succ n ih =>
      intro hn s hs
      obtain ⟨s1, h1, hI1⟩ := ih (by omega) s hs
      obtain ⟨s2, h2, hI2⟩ := hstep s1 i n row hI1 hi (by omega)
      refine ⟨s2, ?_, hI2⟩
      rw [List.range_succ, List.foldlM_append, h1]
      simp [h2]
  have outer : ∀ n, n ≤ G.length →
      ∃ s', (List.range n).foldlM (blurRow maskSize) G = some s' ∧ Inv s' n 0 := by
    intro n
    induction n with
    | zero => intro _; exact ⟨G, rfl, h0⟩
    | succ n ih =>
      intro hn
      obtain ⟨s1, h1, hI1⟩ := ih (by omega)
      have hlt : n < G.length := by omega
      have hG : G[n]? = some G[n] := List.getElem?_eq_getElem hlt
      obtain ⟨r, hr, hrl⟩ := row_of_shape (hshape _ _ _ hI1) hG
      obtain ⟨s2, h2, hI2⟩ := inner n _ hG _ le_rfl s1 hI1
      refine ⟨s2, ?_, hrow s2 n _ hG hI2⟩
      rw [List.range_succ, List.foldlM_append, h1]
      simp only [Option.bind_eq_bind, Option.some_bind, List.foldlM_cons, List.foldlM_nil]
      unfold blurRow
      simp only [hr, hrl, h2, Option.some_bind]
      rfl
  obtain ⟨out, h, hI⟩ := outer G.length le_rfl
  refine ⟨out, ?_, hI⟩
  unfold blurImagePixelsWith
  rw [h]

theorem cellAt_mixedGrid (G out : Grid) (i j k l : Nat) :
    cellAt (mixedGrid G out i j) k l =
      (cellAt G k l).map fun g => if k < i ∨ (k = i ∧ l < j) then pixelOr out k l else g := by
  unfold cellAt mixedGrid
  rw [List.getElem?_mapIdx]
  cases G[k]? with
  | none => rfl
  | some row => simp [List.getElem?_mapIdx]

theorem shape_mixedGrid (G out : Grid) (i j : Nat) : shape (mixedGrid G out i j) = shape G := by
  unfold shape mixedGrid
  apply List.ext_getElem?
  intro k
  simp only [List.getElem?_map, List.getElem?_mapIdx]
  cases G[k]? with
  | none => rfl
  | some row => simp

theorem grid_ext {s t : Grid} (hs : shape s = shape t)
    (h : ∀ k l, cellAt s k l = cellAt t k l) : s = t := by
  apply List.ext_getElem?
  intro k
  have h1 := shape_getElem? s k
  rw [hs, shape_getElem?] at h1
  cases hsk : s[k]? with
  | none =>
    cases htk : t[k]? with
    | none => rfl
    | some r => rw [hsk, htk] at h1; simp at h1
  | some r =>
    cases htk : t[k]? with
    | none => rw [hsk, htk] at h1; simp at h1
    | some r' =>
      congr 1
      apply List.ext_getElem?
      intro l
      have := h k l
      unfold cellAt at this
      rwa [hsk, htk] at this

theorem cellAt_set {s : Grid} {i : Nat} {r : List Pixel} (hr : s[i]? = some r) (j : Nat)
    (p : Pixel) (k l : Nat) :
    cellAt (s.set i (r.set j p)) k l =
      if k = i ∧ l = j ∧ j < r.length then some p else cellAt s k l := by
  have hi : i < s.length := by
    rcases Nat.lt_or_ge i s.length with h | h
    · exact h
    · rw [List.getElem?_eq_none_iff.2 h] at hr; simp at hr
  unfold cellAt
  rw [List.getElem?_set]
  by_cases hk : i = k
  · subst hk
    simp only [hi, if_true, hr, true_and, List.getElem?_set]
    by_cases hl : j = l
    · subst hl
      by_cases hj : j < r.length
      · simp [hj]
      · simp [hj]
        omega
    · have hl' : ¬ l = j := fun h => hl h.symm
      simp [hl, hl']
  · have hk' : ¬ k = i := fun h => hk h.symm
    simp [hk, hk']

theorem cellAt_isSome (s : Grid) (k l : Nat) :
    (cellAt s k l).isSome ↔ ∃ n, (shape s)[k]? = some n ∧ l < n := by
  rw [shape_getElem?]
  unfold cellAt
  cases s[k]? with
  | none => simp
  | some r =>
    simp only [Option.map_some', Option.some.injEq, exists_eq_left']
    rcases Nat.lt_or_ge l r.length with h | h
    · simp [h]
    · rw [List.getElem?_eq_none_iff.2 h]
      simp
      omega

theorem cellAt_isSome_of_shape {s G : Grid} (h : shape s = shape G) (k l : Nat) :
    (cellAt G k l).isSome = (cellAt s k l).isSome := by
  rw [Bool.eq_iff_iff, cellAt_isSome, cellAt_isSome, h]

theorem map_pixelOr {s G : Grid} {k l : Nat}
    (h : (cellAt G k l).isSome = (cellAt s k l).isSome) :
    (cellAt G k l).map (fun _ => pixelOr s k l) = cellAt s k l := by
  unfold pixelOr
  cases hG : cellAt G k l <;> cases hs : cellAt s k l <;> simp_all

theorem mixedGrid_congr (G s t : Grid) (i j : Nat)
    (h : ∀ k l, (k < i ∨ (k = i ∧ l < j)) → cellAt s k l = cellAt t k l) :
    mixedGrid G s i j = mixedGrid G t i j := by
  apply grid_ext
  · rw [shape_mixedGrid, shape_mixedGrid]
  · intro k l
    rw [cellAt_mixedGrid, cellAt_mixedGrid]
    by_cases hb : k < i ∨ (k = i ∧ l < j)
    · simp only [hb, if_true, pixelOr, h k l hb]
    · simp only [hb, if_false]

theorem traceInv_step (maskSize : Nat) (hm : 0 < maskSize) (G s : Grid) (i j : Nat)
    (row : List Pixel) (hI : TraceInv maskSize G s i j) (hrow : G[i]? = some row)
    (hj : j < row.length) :
    ∃ s', blurCell maskSize i j s = some s' ∧ TraceInv maskSize G s' i (j + 1) := by
  obtain ⟨hsh, hrest, hdone⟩ := hI
  obtain ⟨r, hr, hrl⟩ := row_of_shape hsh hrow
  have hjr : j < r.length := by omega
  obtain ⟨p, hp, _, _, _, hcell⟩ := blurCell_eq maskSize hm s i j r hr hjr
  refine ⟨_, hcell, ?_, ?_, ?_⟩
  · rw [shape_set s i j r hr, hsh]
  · intro k l hb
    rw [cellAt_set hr]
    have hne : ¬ (k = i ∧ l = j ∧ j < r.length) := by
      rintro ⟨h1, h2, _⟩; exact hb (Or.inr ⟨h1, by omega⟩)
    rw [if_neg hne]
    exact hrest k l (fun h => hb (by omega))
  · intro k l row' hb hrow' hl
    by_cases hij : k = i ∧ l = j
    · obtain ⟨rfl, rfl⟩ := hij
      refine ⟨p, ?_, ?_⟩
      · rw [cellAt_set hr]; simp [hjr]
      · have hmix : mixedGrid G (s.set k (r.set l p)) k l = s := by
          apply grid_ext
          · rw [shape_mixedGrid, hsh]
          · intro k' l'
            rw [cellAt_mixedGrid]
            by_cases hb' : k' < k ∨ (k' = k ∧ l' < l)
            · have hne : ¬ (k' = k ∧ l' = l ∧ l < r.length) := by
                rintro ⟨h1, h2, _⟩; omega
              have hsame : cellAt (s.set k (r.set l p)) k' l' = cellAt s k' l' := by
                rw [cellAt_set hr, if_neg hne]
              simp only [hb', if_true, pixelOr, hsame]
              exact map_pixelOr (cellAt_isSome_of_shape hsh k' l')
            · simp only [hb', if_false]
              rw [hrest k' l' hb']
              cases cellAt G k' l' <;> rfl
        rw [hmix]
        exact hp
    · have hb2 : k < i ∨ (k = i ∧ l < j) := by omega
      obtain ⟨q, hq, hpq⟩ := hdone k l row' hb2 hrow' hl
      have hne : ¬ (k = i ∧ l = j ∧ j < r.length) := fun h => hij ⟨h.1, h.2.1⟩
      refine ⟨q, ?_, ?_⟩
      · rw [cellAt_set hr, if_neg hne]; exact hq
      · rw [mixedGrid_congr G _ s k l]
        · exact hpq
        · intro k' l' hb'
          have hne' : ¬ (k' = i ∧ l' = j ∧ j < r.length) := by
            rintro ⟨h1, h2, _⟩; omega
          rw [cellAt_set hr, if_neg hne']

theorem traceInv_row (maskSize : Nat) (G s : Grid) (i : Nat) (row : List Pixel)
    (hrow : G[i]? = some row) (hI : TraceInv maskSize G s i row.length) :
    TraceInv maskSize G s (i + 1) 0 := by
  obtain ⟨hsh, hrest, hdone⟩ := hI
  refine ⟨hsh, ?_, ?_⟩
  · intro k l hb
    exact hrest k l (fun h => hb (by omega))
  · intro k l row' hb hrow' hl
    apply hdone k l row' ?_ hrow' hl
    by_cases hk : k = i
    · subst hk
      rw [hrow] at hrow'
      cases hrow'
      exact Or.inr ⟨rfl, hl⟩
    · exact Or.inl (by omega)

/-- The loops of `blurImagePixels` finish on every matrix, and every cell of the result is
what `processBlurMask` returns on the mix of earlier results and later inputs. -/
theorem blur_trace (maskSize : Nat) (hm : 0 < maskSize) (G : Grid) :
    ∃ out, blurImagePixelsWith maskSize G = some ⟨out, none, out⟩ ∧
      TraceInv maskSize G out G.length 0 := by
  apply blur_loop maskSize G (TraceInv maskSize G)
  · intro s i j h; exact h.1
  · intro s i j row hI hrow hj; exact traceInv_step maskSize hm G s i j row hI hrow hj
  · intro s i row hrow hI; exact traceInv_row maskSize G s i row hrow hI
  · refine ⟨rfl, fun _ _ _ => rfl, ?_⟩
    intro k l row hb
    omega

theorem lt_length_of_cellAt {G : Grid} {i j : Nat} {p : Pixel} (h : cellAt G i j = some p) :
    ∃ row, G[i]? = some row ∧ i < G.length ∧ j < row.length ∧ row[j]? = some p := by
  unfold cellAt at h
  cases hr : G[i]? with
  | none => rw [hr] at h; simp at h
  | some row =>
    rw [hr] at h
    simp only at h
    refine ⟨row, rfl, ?_, ?_, h⟩
    · rcases Nat.lt_or_ge i G.length with h' | h'
      · exact h'
      · rw [List.getElem?_eq_none_iff.2 h'] at hr; simp at hr
    · rcases Nat.lt_or_ge j row.length with h' | h'
      · exact h'
      · rw [List.getElem?_eq_none_iff.2 h'] at h; simp at h

/-- Every cell of the result of `blurImagePixels`, as `processBlurMask` of the mixed
matrix. -/
theorem blur_cell (maskSize : Nat) (hm : 0 < maskSize) (G : Grid) (i j : Nat) (p : Pixel)
    (hp : cellAt G i j = some p) :
    ∃ out, blurImagePixelsWith maskSize G = some ⟨out, none, out⟩ ∧ shape out = shape G ∧
      ∃ q, cellAt out i j = some q ∧
        processBlurMaskWith maskSize i j (mixedGrid G out i j) = some q := by
  obtain ⟨out, hout, hsh, _, hdone⟩ := blur_trace maskSize hm G
  obtain ⟨row, hrow, hi, hj, _⟩ := lt_length_of_cellAt hp
  exact ⟨out, hout, hsh, hdone i j row (Or.inl hi) hrow hj⟩

theorem mem_of_index {α : Type} {s : List α} {k : Int} {a : α} (h : index s k = some a) :
    a ∈ s := by
  unfold index at h
  split at h
  · exact List.getElem?_mem h
  · cases h

theorem mem_of_index2 {s : Grid} {k l : Int} {p : Pixel} (h : index2 s k l = some p) :
    ∃ row ∈ s, p ∈ row := by
  unfold index2 at h
  cases hr : index s k with
  | none => rw [hr] at h; cases h
  | some row =>
    rw [hr] at h
    exact ⟨row, mem_of_index hr, mem_of_index h⟩

theorem mem_of_mem_neighbourhood {maskSize : Nat} {i j : Int} {s : Grid} {p : Pixel}
    (h : p ∈ neighbourhood maskSize i j s) : ∃ row ∈ s, p ∈ row := by
  unfold neighbourhood windowCells at h
  rw [List.mem_flatMap] at h
  obtain ⟨a, _, ha⟩ := h
  rw [List.mem_filterMap] at ha
  obtain ⟨b, _, hb⟩ := ha
  exact mem_of_index2 hb

theorem length_flatMap_filterMap_le {α β γ : Type} (as : List α) (bs : List β)
    (f : α → β → Option γ) :
    (as.flatMap fun a => bs.filterMap (f a)).length ≤ as.length * bs.length := by
  induction as with
  | nil => simp
  | cons a as ih =>
    rw [List.flatMap_cons, List.length_append, List.length_cons, Nat.succ_mul]
    have := List.length_filterMap_le (f a) bs
    omega

theorem length_neighbourhood_le (maskSize : Nat) (i j : Int) (s : Grid) :
    (neighbourhood maskSize i j s).length ≤ maskSize * maskSize := by
  unfold neighbourhood windowCells
  have h := length_flatMap_filterMap_le (List.range maskSize) (List.range maskSize)
    (fun (a b : Nat) => index2 s (i - maskOffset maskSize + (a : Int))
      (j - maskOffset maskSize + (b : Int)))
  simpa using h

/-- A property of pixels that `processBlurMask` produces whenever all pixels it reads have
it, and that holds of every input pixel, holds of every pixel of the result. -/
theorem blur_forall (maskSize : Nat) (hm : 0 < maskSize) (G : Grid) (P : Pixel → Prop)
    (hP : ∀ (s : Grid) (i j : Nat) (a : Int), (∀ row ∈ s, ∀ p ∈ row, P p) →
      neighbourhood maskSize i j s ≠ [] →
      P ⟨channelAverage ((neighbourhood maskSize i j s).map Pixel.R),
         channelAverage ((neighbourhood maskSize i j s).map Pixel.G),
         channelAverage ((neighbourhood maskSize i j s).map Pixel.B), a⟩)
    (hG : ∀ row ∈ G, ∀ p ∈ row, P p) :
    ∃ out, blurImagePixelsWith maskSize G = some ⟨out, none, out⟩ ∧
      ∀ row ∈ out, ∀ p ∈ row, P p := by
  obtain ⟨out, hout, _, hall⟩ := blur_loop maskSize G
    (fun s _ _ => shape s = shape G ∧ ∀ row ∈ s, ∀ p ∈ row, P p)
    (fun s i j h => h.1)
    (by
      intro s i j row hI hrow hj
      obtain ⟨hsh, hall⟩ := hI
      obtain ⟨r, hr, hrl⟩ := row_of_shape hsh hrow
      obtain ⟨p, _, _, hne, hpeq, hcell⟩ := blurCell_eq maskSize hm s i j r hr (by omega)
      refine ⟨_, hcell, ?_, ?_⟩
      · rw [shape_set s i j r hr, hsh]
      · intro row' hrow' q hq
        rcases List.mem_or_eq_of_mem_set hrow' with h | h
        · exact hall row' h q hq
        · subst h
          rcases List.mem_or_eq_of_mem_set hq with h | h
          · exact hall r (List.getElem?_mem hr) q h
          · rw [h, hpeq]
            exact hP s i j _ hall hne)
    (fun s i row _ h => h)
    ⟨rfl, hG⟩
  exact ⟨out, hout, hall⟩

theorem channelAverage_eq_exact (xs : List Int) (h1 : minInt ≤ xs.sum) (h2 : xs.sum ≤ maxInt) :
    channelAverage xs = exactAverage xs := by
  unfold channelAverage exactAverage
  rw [wrapInt_of_range _ h1 h2]

theorem sum_bounds (xs : List Int) (c : Int) (h : ∀ x ∈ xs, 0 ≤ x ∧ x ≤ c) :
    0 ≤ xs.sum ∧ xs.sum ≤ c * xs.length := by
  induction xs with
  | nil => simp
  | cons x xs ih =>
    have hx := h x (List.mem_cons_self _ _)
    have ih' := ih (fun y hy => h y (List.mem_cons_of_mem _ hy))
    rw [List.sum_cons, List.length_cons]
    push_cast
    constructor
    · omega
    · rw [mul_add, mul_one]; omega

theorem sum_const (xs : List Int) (r : Int) (h : ∀ x ∈ xs, x = r) :
    xs.sum = r * xs.length := by
  induction xs with
  | nil => simp
  | cons x xs ih =>
    have hx := h x (List.mem_cons_self _ _)
    have ih' := ih (fun y hy => h y (List.mem_cons_of_mem _ hy))
    rw [List.sum_cons, List.length_cons, ih', hx]
    push_cast
    ring

theorem channelAverage_bounds (xs : List Int) (hne : xs ≠ []) (hlen : xs.length ≤ 9)
    (h : ∀ x ∈ xs, 0 ≤ x ∧ x ≤ 255) : 0 ≤ channelAverage xs ∧ channelAverage xs ≤ 255 := by
  obtain ⟨h0, h1⟩ := sum_bounds xs 255 h
  have hpos : 0 < xs.length := List.length_pos.2 hne
  have hn : (0 : Int) < xs.length := by exact_mod_cast hpos
  have hn9 : (xs.length : Int) ≤ 9 := by exact_mod_cast hlen
  have hmax : xs.sum ≤ maxInt := by
    unfold maxInt; simp only [intBits]; norm_num; omega
  have hmin : minInt ≤ xs.sum := by
    unfold minInt; simp only [intBits]; norm_num; omega
  rw [channelAverage_eq_exact xs hmin hmax]
  unfold exactAverage
  rw [Int.tdiv_eq_ediv h0 hn.le]
  exact ⟨Int.ediv_nonneg h0 hn.le, Int.ediv_le_of_le_mul hn h1⟩

theorem channelAverage_const (xs : List Int) (r : Int) (hne : xs ≠ []) (hlen : xs.length ≤ 9)
    (h0 : 0 ≤ r) (h9 : 9 * r ≤ maxInt) (h : ∀ x ∈ xs, x = r) : channelAverage xs = r := by
  have hs := sum_const xs r h
  have hpos : 0 < xs.length := List.length_pos.2 hne
  have hn : (0 : Int) < xs.length := by exact_mod_cast hpos
  have hn9 : (xs.length : Int) ≤ 9 := by exact_mod_cast hlen
  have hle : r * xs.length ≤ 9 * r := by nlinarith
  have hge : 0 ≤ r * (xs.length : Int) := by positivity
  have hmin : minInt ≤ xs.sum := by
    rw [hs]; unfold minInt; simp only [intBits]; norm_num; omega
  have hmax : xs.sum ≤ maxInt := by rw [hs]; omega
  rw [channelAverage_eq_exact xs hmin hmax]
  unfold exactAverage
  rw [hs]
  exact Int.mul_tdiv_cancel r (by omega)

theorem processBlurMaskWith_cell (maskSize : Nat) (hm : 0 < maskSize) (s : Grid) (i j : Nat)
    (p : Pixel) (hp : cellAt s i j = some p) :
    neighbourhood maskSize i j s ≠ [] ∧
    processBlurMaskWith maskSize i j s =
      some ⟨channelAverage ((neighbourhood maskSize i j s).map Pixel.R),
            channelAverage ((neighbourhood maskSize i j s).map Pixel.G),
            channelAverage ((neighbourhood maskSize i j s).map Pixel.B), p.A⟩ := by
  have hne : neighbourhood maskSize i j s ≠ [] :=
    List.ne_nil_of_mem (mem_neighbourhood_self maskSize hm s i j p hp)
  exact ⟨hne, processBlurMaskWith_eq maskSize i j s p (by rw [index2_natCast, hp]) hne⟩

theorem cellAt_mixedGrid_self (G out : Grid) (i j : Nat) (p : Pixel)
    (hp : cellAt G i j = some p) : cellAt (mixedGrid G out i j) i j = some p := by
  rw [cellAt_mixedGrid, hp]
  simp

theorem mixedGrid_zero (G out : Grid) : mixedGrid G out 0 0 = G := by
  apply grid_ext (shape_mixedGrid G out 0 0)
  intro k l
  rw [cellAt_mixedGrid]
  cases cellAt G k l <;> simp

/-- Every cell of the result: it exists, and each channel is the average over the
neighbourhood in the mixed matrix; alpha is the input alpha. -/
theorem blur_cell_value (maskSize : Nat) (hm : 0 < maskSize) (G : Grid) (i j : Nat)
    (p : Pixel) (hp : cellAt G i j = some p) :
    ∃ out, blurImagePixelsWith maskSize G = some ⟨out, none, out⟩ ∧ shape out = shape G ∧
      processBlurMaskWith maskSize i j (mixedGrid G out i j) = cellAt out i j ∧
      cellAt out i j =
        some ⟨channelAverage ((neighbourhood maskSize i j (mixedGrid G out i j)).map Pixel.R),
              channelAverage ((neighbourhood maskSize i j (mixedGrid G out i j)).map Pixel.G),
              channelAverage ((neighbourhood maskSize i j (mixedGrid G out i j)).map Pixel.B),
              p.A⟩ := by
  obtain ⟨out, hout, hsh, q, hq, hpq⟩ := blur_cell maskSize hm G i j p hp
  have h := (processBlurMaskWith_cell maskSize hm (mixedGrid G out i j) i j p
    (cellAt_mixedGrid_self G out i j p hp)).2
  refine ⟨out, hout, hsh, by rw [hpq, hq], ?_⟩
  rw [hq, ← hpq, h]

theorem neighbourhood_corner (G : Grid) (p00 p01 p10 p11 : Pixel)
    (h00 : cellAt G 0 0 = some p00) (h01 : cellAt G 0 1 = some p01)
    (h10 : cellAt G 1 0 = some p10) (h11 : cellAt G 1 1 = some p11) :
    neighbourhood MASK_SIZE ((0 : Nat) : Int) ((0 : Nat) : Int) G = [p00, p01, p10, p11] := by
  have e00 : index2 G 0 0 = some p00 := by rw [← h00, ← index2_natCast]; rfl
  have e01 : index2 G 0 1 = some p01 := by rw [← h01, ← index2_natCast]; rfl
  have e10 : index2 G 1 0 = some p10 := by rw [← h10, ← index2_natCast]; rfl
  have e11 : index2 G 1 1 = some p11 := by rw [← h11, ← index2_natCast]; rfl
  have n1 : ∀ l : Int, index2 G (-1) l = none := by
    intro l; simp [index2, index]
  have n2 : ∀ k : Int, index2 G k (-1) = none := by
    intro k
    unfold index2
    cases index G k with
    | none => rfl
    | some row => simp [index]
  unfold neighbourhood windowCells
  have hr : List.range MASK_SIZE = [0, 1, 2] := by decide
  have ho : maskOffset MASK_SIZE = 1 := by decide
  rw [hr, ho]
  simp [List.flatMap_cons, List.filterMap_cons, n1, n2, e00, e01, e10, e11]

/-- C1, at its failing input: on the 2x2 matrix with red values 0, 4 / 4, 8 every cell has
the whole matrix as its neighbourhood, so the box blur of the original matrix has red
4 = (0 + 4 + 4 + 8) / 4 in every cell; the code returns red 4 at cell (0,0) and red 5 at the
three later cells, which average values already written. -/
theorem aliased_blur_differs_from_boxBlur :
    blurImagePixels aliasGrid =
      some ⟨[[⟨4, 0, 0, 255⟩, ⟨5, 0, 0, 255⟩], [⟨5, 0, 0, 255⟩, ⟨5, 0, 0, 255⟩]], none,
            [[⟨4, 0, 0, 255⟩, ⟨5, 0, 0, 255⟩], [⟨5, 0, 0, 255⟩, ⟨5, 0, 0, 255⟩]]⟩ ∧
    boxBlur MASK_SIZE aliasGrid =
      [[⟨4, 0, 0, 255⟩, ⟨4, 0, 0, 255⟩], [⟨4, 0, 0, 255⟩, ⟨4, 0, 0, 255⟩]] := by
  decide

/-- C2: for every matrix (rectangular or not) and every cell of it, `blurImagePixels`
returns without panic or error, and the alpha of the output cell is the alpha the input
cell had before the call. -/
theorem alpha_passthrough (G : Grid) (i j : Nat) (p : Pixel) (hp : cellAt G i j = some p) :
    ∃ out, blurImagePixels G = some ⟨out, none, out⟩ ∧
      ∃ q, cellAt out i j = some q ∧ q.A = p.A := by
  obtain ⟨out, hout, _, _, hq⟩ := blur_cell_value MASK_SIZE (by decide) G i j p hp
  exact ⟨out, hout, _, hq, rfl⟩

/-- Instance of `alpha_passthrough` at cell (1,2) of the 3x3 matrix with red 1..9. -/
theorem alpha_passthrough_witness :
    cellAt grid123 1 2 = some ⟨6, 0, 0, 255⟩ ∧
    ∃ out, blurImagePixels grid123 = some ⟨out, none, out⟩ ∧
      ∃ q, cellAt out 1 2 = some q ∧ q.A = 255 :=
  ⟨by decide, alpha_passthrough grid123 1 2 ⟨6, 0, 0, 255⟩ (by decide)⟩

/-- C3: for every matrix, `blurImagePixels` returns a matrix with the same number of rows,
each row as long as the corresponding input row. -/
theorem dimensions_preserved (G : Grid) :
    ∃ out, blurImagePixels G = some ⟨out, none, out⟩ ∧ out.length = G.length ∧
      ∀ i : Nat, (out[i]?).map List.length = (G[i]?).map List.length := by
  obtain ⟨out, hout, hsh, _⟩ := blur_trace MASK_SIZE (by decide) G
  refine ⟨out, hout, length_of_shape hsh, fun i => ?_⟩
  rw [← shape_getElem?, ← shape_getElem?, hsh]

/-- C4: when every red, green and blue value of the input lies in [0, 255], so does every
red, green and blue value of the matrix `blurImagePixels` returns. -/
theorem channel_bounds (G : Grid)
    (hG : ∀ row ∈ G, ∀ p ∈ row,
      (0 ≤ p.R ∧ p.R ≤ 255) ∧ (0 ≤ p.G ∧ p.G ≤ 255) ∧ (0 ≤ p.B ∧ p.B ≤ 255)) :
    ∃ out, blurImagePixels G = some ⟨out, none, out⟩ ∧
      ∀ row ∈ out, ∀ q ∈ row,
        (0 ≤ q.R ∧ q.R ≤ 255) ∧ (0 ≤ q.G ∧ q.G ≤ 255) ∧ (0 ≤ q.B ∧ q.B ≤ 255) := by
  apply blur_forall MASK_SIZE (by decide) G
    (fun p => (0 ≤ p.R ∧ p.R ≤ 255) ∧ (0 ≤ p.G ∧ p.G ≤ 255) ∧ (0 ≤ p.B ∧ p.B ≤ 255)) _ hG
  intro s i j a hall hne
  have hlen : ∀ f : Pixel → Int, ((neighbourhood MASK_SIZE i j s).map f).length ≤ 9 := by
    intro f
    rw [List.length_map]
    exact length_neighbourhood_le MASK_SIZE i j s
  have hne' : ∀ f : Pixel → Int, (neighbourhood MASK_SIZE i j s).map f ≠ [] := by
    intro f h
    exact hne (List.map_eq_nil_iff.1 h)
  have hmem : ∀ p ∈ neighbourhood MASK_SIZE i j s,
      (0 ≤ p.R ∧ p.R ≤ 255) ∧ (0 ≤ p.G ∧ p.G ≤ 255) ∧ (0 ≤ p.B ∧ p.B ≤ 255) := by
    intro p hp
    obtain ⟨row, hrow, hin⟩ := mem_of_mem_neighbourhood hp
    exact hall row hrow p hin
  refine ⟨?_, ?_, ?_⟩
  · apply channelAverage_bounds _ (hne' _) (hlen _)
    intro x hx
    obtain ⟨p, hp, rfl⟩ := List.mem_map.1 hx
    exact (hmem p hp).1
  · apply channelAverage_bounds _ (hne' _) (hlen _)
    intro x hx
    obtain ⟨p, hp, rfl⟩ := List.mem_map.1 hx
    exact (hmem p hp).2.1
  · apply channelAverage_bounds _ (hne' _) (hlen _)
    intro x hx
    obtain ⟨p, hp, rfl⟩ := List.mem_map.1 hx
    exact (hmem p hp).2.2

/-- Instance of `channel_bounds` at the 3x3 matrix with red 1..9. -/
theorem channel_bounds_witness :
    (∀ row ∈ grid123, ∀ p ∈ row,
      (0 ≤ p.R ∧ p.R ≤ 255) ∧ (0 ≤ p.G ∧ p.G ≤ 255) ∧ (0 ≤ p.B ∧ p.B ≤ 255)) ∧
    ∃ out, blurImagePixels grid123 = some ⟨out, none, out⟩ ∧
      ∀ row ∈ out, ∀ q ∈ row,
        (0 ≤ q.R ∧ q.R ≤ 255) ∧ (0 ≤ q.G ∧ q.G ≤ 255) ∧ (0 ≤ q.B ∧ q.B ≤ 255) :=
  ⟨by decide, channel_bounds grid123 (by decide)⟩

theorem neighbourhood_single (p : Pixel) :
    neighbourhood MASK_SIZE ((0 : Nat) : Int) ((0 : Nat) : Int) [[p]] = [p] := by
  have hr : List.range MASK_SIZE = [0, 1, 2] := by decide
  have ho : maskOffset MASK_SIZE = 1 := by decide
  unfold neighbourhood windowCells
  rw [hr, ho]
  simp [List.flatMap_cons, List.filterMap_cons, index2, index]

theorem channelAverage_single (x : Int) (h1 : minInt ≤ x) (h2 : x ≤ maxInt) :
    channelAverage [x] = x := by
  rw [channelAverage_eq_exact [x] (by simpa using h1) (by simpa using h2)]
  simp [exactAverage]

theorem grid_of_shape_single {out : Grid} {q : Pixel} (hsh : shape out = shape [[q]])
    (hq : cellAt out 0 0 = some q) : out = [[q]] := by
  apply grid_ext hsh
  intro k l
  by_cases h : k = 0 ∧ l = 0
  · obtain ⟨rfl, rfl⟩ := h
    rw [hq]; rfl
  · have h2 : cellAt [[q]] k l = none := by
      unfold cellAt
      rcases k with _ | k
      · rcases l with _ | l
        · exact absurd ⟨rfl, rfl⟩ h
        · simp
      · simp
    have h3 := cellAt_isSome_of_shape hsh k l
    rw [h2] at h3 ⊢
    cases hc : cellAt out k l with
    | none => rfl
    | some x => rw [hc] at h3; simp at h3

/-- C5, counterexample: a uniform 1x2 matrix with red `2^62`, green and blue 0 (all
non-negative); the two-term red sum wraps to `-2^63`, so the output red at (0, 0) is
`-2^62`, not `2^62`. -/
theorem uniform_overflow_counterexample :
    (∀ row ∈ overflowGrid, ∀ p ∈ row, p.R = 4611686018427387904 ∧ p.G = 0 ∧ p.B = 0) ∧
    blurImagePixels overflowGrid =
      some ⟨[[⟨-4611686018427387904, 0, 0, 0⟩, ⟨0, 0, 0, 0⟩]], none,
            [[⟨-4611686018427387904, 0, 0, 0⟩, ⟨0, 0, 0, 0⟩]]⟩ ∧
    ¬ (∀ row ∈ [[(⟨-4611686018427387904, 0, 0, 0⟩ : Pixel), ⟨0, 0, 0, 0⟩]], ∀ q ∈ row,
        q.R = 4611686018427387904 ∧ q.G = 0 ∧ q.B = 0) := by
  decide

/-- C5, amended: when all pixels of the input share the same red, green and blue values
`r`, `g`, `b`, each non-negative and small enough that nine times it still is an `int`,
every pixel of the matrix `blurImagePixels` returns has red, green and blue `r`, `g`, `b`;
and the blur of a 1x1 matrix returns that pixel unchanged. -/
theorem uniform_preserved (G : Grid) (r g b : Int)
    (hr : 0 ≤ r ∧ 9 * r ≤ maxInt) (hg : 0 ≤ g ∧ 9 * g ≤ maxInt) (hb : 0 ≤ b ∧ 9 * b ≤ maxInt)
    (hG : ∀ row ∈ G, ∀ p ∈ row, p.R = r ∧ p.G = g ∧ p.B = b) :
    (∃ out, blurImagePixels G = some ⟨out, none, out⟩ ∧
      ∀ row ∈ out, ∀ q ∈ row, q.R = r ∧ q.G = g ∧ q.B = b) ∧
    (∀ p : Pixel, (minInt ≤ p.R ∧ p.R ≤ maxInt) → (minInt ≤ p.G ∧ p.G ≤ maxInt) →
      (minInt ≤ p.B ∧ p.B ≤ maxInt) →
      blurImagePixels [[p]] = some ⟨[[p]], none, [[p]]⟩) := by
  constructor
  · apply blur_forall MASK_SIZE (by decide) G (fun p => p.R = r ∧ p.G = g ∧ p.B = b) _ hG
    intro s i j a hall hne
    have hlen : ∀ f : Pixel → Int, ((neighbourhood MASK_SIZE i j s).map f).length ≤ 9 := by
      intro f
      rw [List.length_map]
      exact length_neighbourhood_le MASK_SIZE i j s
    have hne' : ∀ f : Pixel → Int, (neighbourhood MASK_SIZE i j s).map f ≠ [] := by
      intro f h
      exact hne (List.map_eq_nil_iff.1 h)
    have hmem : ∀ p ∈ neighbourhood MASK_SIZE i j s, p.R = r ∧ p.G = g ∧ p.B = b := by
      intro p hp
      obtain ⟨row, hrow, hin⟩ := mem_of_mem_neighbourhood hp
      exact hall row hrow p hin
    refine ⟨?_, ?_, ?_⟩
    · apply channelAverage_const _ r (hne' _) (hlen _) hr.1 hr.2
      intro x hx
      obtain ⟨p, hp, rfl⟩ := List.mem_map.1 hx
      exact (hmem p hp).1
    · apply channelAverage_const _ g (hne' _) (hlen _) hg.1 hg.2
      intro x hx
      obtain ⟨p, hp, rfl⟩ := List.mem_map.1 hx
      exact (hmem p hp).2.1
    · apply channelAverage_const _ b (hne' _) (hlen _) hb.1 hb.2
      intro x hx
      obtain ⟨p, hp, rfl⟩ := List.mem_map.1 hx
      exact (hmem p hp).2.2
  · intro p hR hG' hB
    obtain ⟨out, hout, hsh, _, hq⟩ :=
      blur_cell_value MASK_SIZE (by decide) [[p]] 0 0 p (by rfl)
    rw [mixedGrid_zero, neighbourhood_single] at hq
    simp only [List.map_cons, List.map_nil] at hq
    rw [channelAverage_single _ hR.1 hR.2, channelAverage_single _ hG'.1 hG'.2,
      channelAverage_single _ hB.1 hB.2] at hq
    have : out = [[p]] := grid_of_shape_single hsh hq
    subst this
    exact hout

/-- Instance of `uniform_preserved` at a uniform 2x2 matrix with red, green and blue 7. -/
theorem uniform_preserved_witness :
    (((0 : Int) ≤ 7 ∧ 9 * 7 ≤ maxInt) ∧
      ∀ row ∈ [[(⟨7, 7, 7, 1⟩ : Pixel), ⟨7, 7, 7, 2⟩], [⟨7, 7, 7, 3⟩, ⟨7, 7, 7, 4⟩]],
        ∀ p ∈ row, p.R = 7 ∧ p.G = 7 ∧ p.B = 7) ∧
    ((∃ out, blurImagePixels [[⟨7, 7, 7, 1⟩, ⟨7, 7, 7, 2⟩], [⟨7, 7, 7, 3⟩, ⟨7, 7, 7, 4⟩]] =
        some ⟨out, none, out⟩ ∧
      ∀ row ∈ out, ∀ q ∈ row, q.R = 7 ∧ q.G = 7 ∧ q.B = 7) ∧
    (∀ p : Pixel, (minInt ≤ p.R ∧ p.R ≤ maxInt) → (minInt ≤ p.G ∧ p.G ≤ maxInt) →
      (minInt ≤ p.B ∧ p.B ≤ maxInt) →
      blurImagePixels [[p]] = some ⟨[[p]], none, [[p]]⟩)) :=
  ⟨by decide,
   uniform_preserved [[⟨7, 7, 7, 1⟩, ⟨7, 7, 7, 2⟩], [⟨7, 7, 7, 3⟩, ⟨7, 7, 7, 4⟩]] 7 7 7
      (by decide) (by decide) (by decide) (by decide)⟩

/-- C6: in every matrix whose cells (0,0), (0,1), (1,0), (1,1) exist (so in every
rectangular matrix with at least 2 rows and 2 columns) each of red, green and blue of the
output cell (0,0) is the Go quotient `(G[0][0] + G[0][1] + G[1][0] + G[1][1]) / 4` of that
channel, which is the exact truncated quotient of the four-term sum whenever that sum is an
`int`; and on the 3x3 matrix with red 1..9 the output red at (0,0) is 3. -/
theorem corner_average (G : Grid) (p00 p01 p10 p11 : Pixel)
    (h00 : cellAt G 0 0 = some p00) (h01 : cellAt G 0 1 = some p01)
    (h10 : cellAt G 1 0 = some p10) (h11 : cellAt G 1 1 = some p11) :
    (∃ out, blurImagePixels G = some ⟨out, none, out⟩ ∧
      ∃ q, cellAt out 0 0 = some q ∧
        ∀ ch : Pixel → Int, (ch = Pixel.R ∨ ch = Pixel.G ∨ ch = Pixel.B) →
          ch q = Int.tdiv (goAdd (goAdd (goAdd (ch p00) (ch p01)) (ch p10)) (ch p11)) 4 ∧
          (minInt ≤ ch p00 + ch p01 + ch p10 + ch p11 →
            ch p00 + ch p01 + ch p10 + ch p11 ≤ maxInt →
            ch q = Int.tdiv (ch p00 + ch p01 + ch p10 + ch p11) 4)) ∧
    (∃ out, blurImagePixels grid123 = some ⟨out, none, out⟩ ∧
      (cellAt out 0 0).map Pixel.R = some 3) := by
  constructor
  · obtain ⟨out, hout, _, _, hq⟩ := blur_cell_value MASK_SIZE (by decide) G 0 0 p00 h00
    rw [mixedGrid_zero, neighbourhood_corner G p00 p01 p10 p11 h00 h01 h10 h11] at hq
    refine ⟨out, hout, _, hq, ?_⟩
    have key : ∀ a b c d : Int,
        channelAverage [a, b, c, d] = Int.tdiv (goAdd (goAdd (goAdd a b) c) d) 4 ∧
        (minInt ≤ a + b + c + d → a + b + c + d ≤ maxInt →
          channelAverage [a, b, c, d] = Int.tdiv (a + b + c + d) 4) := by
      intro a b c d
      have hs : [a, b, c, d].sum = a + b + c + d := by simp; ring
      constructor
      · unfold channelAverage goAdd
        rw [wrapInt_add_wrapInt, add_assoc, wrapInt_add_wrapInt, ← add_assoc, hs]
        rfl
      · intro h1 h2
        rw [channelAverage_eq_exact _ (by rw [hs]; exact h1) (by rw [hs]; exact h2)]
        unfold exactAverage
        rw [hs]
        rfl
    intro ch hch
    rcases hch with rfl | rfl | rfl
    · exact key _ _ _ _
    · exact key _ _ _ _
    · exact key _ _ _ _
  · exact ⟨[[⟨3, 0, 0, 255⟩, ⟨3, 0, 0, 255⟩, ⟨4, 0, 0, 255⟩],
            [⟨5, 0, 0, 255⟩, ⟨5, 0, 0, 255⟩, ⟨5, 0, 0, 255⟩],
            [⟨6, 0, 0, 255⟩, ⟨6, 0, 0, 255⟩, ⟨6, 0, 0, 255⟩]], by decide, by decide⟩

/-- Instance of `corner_average` at the 3x3 matrix with red 1..9. -/
theorem corner_average_witness :
    (cellAt grid123 0 0 = some ⟨1, 0, 0, 255⟩ ∧ cellAt grid123 0 1 = some ⟨2, 0, 0, 255⟩ ∧
      cellAt grid123 1 0 = some ⟨4, 0, 0, 255⟩ ∧ cellAt grid123 1 1 = some ⟨5, 0, 0, 255⟩) ∧
    ∃ out, blurImagePixels grid123 = some ⟨out, none, out⟩ ∧
      ∃ q, cellAt out 0 0 = some q ∧
        ∀ ch : Pixel → Int, (ch = Pixel.R ∨ ch = Pixel.G ∨ ch = Pixel.B) →
          ch q = Int.tdiv (goAdd (goAdd (goAdd (ch ⟨1, 0, 0, 255⟩) (ch ⟨2, 0, 0, 255⟩))
            (ch ⟨4, 0, 0, 255⟩)) (ch ⟨5, 0, 0, 255⟩)) 4 ∧
          (minInt ≤ ch ⟨1, 0, 0, 255⟩ + ch ⟨2, 0, 0, 255⟩ + ch ⟨4, 0, 0, 255⟩ +
              ch ⟨5, 0, 0, 255⟩ →
            ch ⟨1, 0, 0, 255⟩ + ch ⟨2, 0, 0, 255⟩ + ch ⟨4, 0, 0, 255⟩ + ch ⟨5, 0, 0, 255⟩ ≤
              maxInt →
            ch q = Int.tdiv (ch ⟨1, 0, 0, 255⟩ + ch ⟨2, 0, 0, 255⟩ + ch ⟨4, 0, 0, 255⟩ +
              ch ⟨5, 0, 0, 255⟩) 4) :=
  ⟨by decide,
   (corner_average grid123 ⟨1, 0, 0, 255⟩ ⟨2, 0, 0, 255⟩ ⟨4, 0, 0, 255⟩ ⟨5, 0, 0, 255⟩
      (by decide) (by decide) (by decide) (by decide)).1⟩

/-- C7: on the 3x3 matrix with red 1..9 in row-major order, green and blue 0, the red of
the centre cell (1,1) of the matrix `blurImagePixels` returns is 5. -/
theorem centre_average :
    ∃ out, blurImagePixels grid123 = some ⟨out, none, out⟩ ∧
      (cellAt out 1 1).map Pixel.R = some 5 :=
  ⟨[[⟨3, 0, 0, 255⟩, ⟨3, 0, 0, 255⟩, ⟨4, 0, 0, 255⟩],
    [⟨5, 0, 0, 255⟩, ⟨5, 0, 0, 255⟩, ⟨5, 0, 0, 255⟩],
    [⟨6, 0, 0, 255⟩, ⟨6, 0, 0, 255⟩, ⟨6, 0, 0, 255⟩]], by decide, by decide⟩

/-- C8: for every positive mask size and every matrix, at every cell of the matrix the
loops of `processBlurMask` finish with `total ≥ 1` and the function returns a pixel without
panic (no division by zero, no index out of range); and `blurImagePixels` returns a matrix
with a `nil` error. -/
theorem blur_total (maskSize : Nat) (hm : 0 < maskSize) (G : Grid) :
    (∀ (i j : Nat) (p : Pixel), cellAt G i j = some p →
      ∃ acc, maskLoop maskSize (i - maskOffset maskSize) (j - maskOffset maskSize) G
          ⟨⟨0, 0, 0, 0⟩, 0⟩ = some acc ∧ 1 ≤ acc.total ∧
        ∃ q, processBlurMaskWith maskSize i j G = some q) ∧
    ∃ out, blurImagePixelsWith maskSize G = some ⟨out, none, out⟩ := by
  constructor
  · intro i j p hp
    obtain ⟨hne, hq⟩ := processBlurMaskWith_cell maskSize hm G i j p hp
    refine ⟨_, maskLoop_eq _ _ _ _ _, ?_, _, hq⟩
    rw [foldl_addNeighbour_total]
    have : 0 < (neighbourhood maskSize i j G).length := List.length_pos.2 hne
    unfold neighbourhood at this
    simp only [zero_add]
    exact_mod_cast this
  · obtain ⟨out, hout, _⟩ := blur_trace maskSize hm G
    exact ⟨out, hout⟩

/-- Instance of `blur_total` at the even mask size 2 and a 2x2 matrix. -/
theorem blur_total_witness :
    0 < 2 ∧
    ((∀ (i j : Nat) (p : Pixel), cellAt aliasGrid i j = some p →
      ∃ acc, maskLoop 2 (i - maskOffset 2) (j - maskOffset 2) aliasGrid
          ⟨⟨0, 0, 0, 0⟩, 0⟩ = some acc ∧ 1 ≤ acc.total ∧
        ∃ q, processBlurMaskWith 2 i j aliasGrid = some q) ∧
    ∃ out, blurImagePixelsWith 2 aliasGrid = some ⟨out, none, out⟩) :=
  ⟨by decide, blur_total 2 (by decide) aliasGrid⟩

/-- C9: `blurImagePixels` reads the storage it writes.  For every matrix and every cell
`(i, j)` of it the output cell is what `processBlurMask` returns on the mixed matrix whose
cells before `(i, j)` in row-major order hold their output values and whose other cells
hold their input values: per channel the Go average over the clipped 3x3 neighbourhood in
that mixed matrix, which is the exact truncated average whenever the sum is an `int`.  After the call the argument matrix holds the returned values.  On the
2x2 matrix with red 0, 4 / 4, 8 the result differs from the box blur of the original. -/
theorem in_place_blur (G : Grid) (i j : Nat) (p : Pixel) (hp : cellAt G i j = some p) :
    (∃ res, blurImagePixels G = some res ∧ res.err = none ∧ res.pixels = res.blurredPixels ∧
      ∃ q, cellAt res.blurredPixels i j = some q ∧
        processBlurMask i j (mixedGrid G res.blurredPixels i j) = some q ∧
        ∀ ch : Pixel → Int, (ch = Pixel.R ∨ ch = Pixel.G ∨ ch = Pixel.B) →
          ch q = channelAverage
            ((neighbourhood MASK_SIZE i j (mixedGrid G res.blurredPixels i j)).map ch) ∧
          (minInt ≤
              ((neighbourhood MASK_SIZE i j (mixedGrid G res.blurredPixels i j)).map ch).sum →
            ((neighbourhood MASK_SIZE i j (mixedGrid G res.blurredPixels i j)).map ch).sum ≤
              maxInt →
            ch q = exactAverage
              ((neighbourhood MASK_SIZE i j (mixedGrid G res.blurredPixels i j)).map ch))) ∧
    (∃ res, blurImagePixels aliasGrid = some res ∧
      res.blurredPixels ≠ boxBlur MASK_SIZE aliasGrid) := by
  constructor
  · obtain ⟨out, hout, _, hpq, hq⟩ := blur_cell_value MASK_SIZE (by decide) G i j p hp
    refine ⟨_, hout, rfl, rfl, _, hq, ?_, ?_⟩
    · unfold processBlurMask
      rw [hpq, hq]
    · intro ch hch
      have key : ∀ xs : List Int, channelAverage xs = channelAverage xs ∧
          (minInt ≤ xs.sum → xs.sum ≤ maxInt → channelAverage xs = exactAverage xs) :=
        fun xs => ⟨rfl, channelAverage_eq_exact xs⟩
      rcases hch with rfl | rfl | rfl <;> exact key _
  · exact ⟨⟨[[⟨4, 0, 0, 255⟩, ⟨5, 0, 0, 255⟩], [⟨5, 0, 0, 255⟩, ⟨5, 0, 0, 255⟩]], none,
      [[⟨4, 0, 0, 255⟩, ⟨5, 0, 0, 255⟩], [⟨5, 0, 0, 255⟩, ⟨5, 0, 0, 255⟩]]⟩, by decide, by decide⟩

/-- Instance of `in_place_blur` at cell (0,1) of the 2x2 matrix with red 0, 4 / 4, 8. -/
theorem in_place_blur_witness :
    cellAt aliasGrid 0 1 = some ⟨4, 0, 0, 255⟩ ∧
    ∃ res, blurImagePixels aliasGrid = some res ∧ res.err = none ∧
      res.pixels = res.blurredPixels ∧
      ∃ q, cellAt res.blurredPixels 0 1 = some q ∧
        processBlurMask ((0 : Nat) : Int) ((1 : Nat) : Int)
          (mixedGrid aliasGrid res.blurredPixels 0 1) = some q ∧
        ∀ ch : Pixel → Int, (ch = Pixel.R ∨ ch = Pixel.G ∨ ch = Pixel.B) →
          ch q = channelAverage
            ((neighbourhood MASK_SIZE ((0 : Nat) : Int) ((1 : Nat) : Int)
              (mixedGrid aliasGrid res.blurredPixels 0 1)).map ch) ∧
          (minInt ≤
              ((neighbourhood MASK_SIZE ((0 : Nat) : Int) ((1 : Nat) : Int)
                (mixedGrid aliasGrid res.blurredPixels 0 1)).map ch).sum →
            ((neighbourhood MASK_SIZE ((0 : Nat) : Int) ((1 : Nat) : Int)
                (mixedGrid aliasGrid res.blurredPixels 0 1)).map ch).sum ≤ maxInt →
            ch q = exactAverage
              ((neighbourhood MASK_SIZE ((0 : Nat) : Int) ((1 : Nat) : Int)
                (mixedGrid aliasGrid res.blurredPixels 0 1)).map ch)) :=
  ⟨by decide, (in_place_blur aliasGrid 0 1 ⟨4, 0, 0, 255⟩ (by decide)).1⟩

theorem foldl_append_singleton {α β : Type} (f : α → β) (l : List α) (acc : List β) :
    l.foldl (fun (r : List β) (x : α) => r ++ [f x]) acc = acc ++ l.map f := by
  induction l generalizing acc with
  | nil => simp
  | cons x l ih => rw [List.foldl_cons, ih]; simp

theorem getImagePixels_eq (img : Image) :
    getImagePixels img none =
      ((List.range img.maxY.toNat).map fun (i : Nat) =>
        (List.range img.maxX.toNat).map fun (j : Nat) =>
          getImagePixelFromRGBA (img.At i j).r (img.At i j).g (img.At i j).b (img.At i j).a,
       none) := by
  unfold getImagePixels
  simp only [foldl_append_singleton, List.nil_append]

/-- C10, counterexample: on a square 2x2 image whose pixel at `x = 1, y = 0` is red, the
cell at row 0, column 1 is the black pixel of `x = 0, y = 1`; the red pixel lands in row 1,
column 0. -/
theorem getImagePixels_transposed :
    getImagePixels image2x2 none =
      ([[⟨0, 0, 0, 255⟩, ⟨0, 0, 0, 255⟩], [⟨10, 0, 0, 255⟩, ⟨0, 0, 0, 255⟩]], none) ∧
    cellAt (getImagePixels image2x2 none).1 0 1 ≠
      some (getImagePixelFromRGBA (image2x2.At 1 0).r (image2x2.At 1 0).g
        (image2x2.At 1 0).b (image2x2.At 1 0).a) := by
  decide

/-- C10, amended: for a decoded square image (`Bounds().Max = (n, n)`), `getImagePixels`
returns a `nil` error and `n` rows of `n` cells, and the cell `[i][j]` is the colour of the
source pixel at `x = i, y = j` with each 16-bit channel divided by 257: the first index is
the x coordinate. -/
theorem getImagePixels_square (img : Image) (n : Nat) (hx : img.maxX = n) (hy : img.maxY = n) :
    (getImagePixels img none).2 = none ∧
    (getImagePixels img none).1.length = n ∧
    (∀ row ∈ (getImagePixels img none).1, row.length = n) ∧
    ∀ i j : Nat, i < n → j < n →
      cellAt (getImagePixels img none).1 i j =
        some ⟨(((img.At i j).r / 257 : Nat) : Int), (((img.At i j).g / 257 : Nat) : Int),
              (((img.At i j).b / 257 : Nat) : Int), (((img.At i j).a / 257 : Nat) : Int)⟩ := by
  rw [getImagePixels_eq, hx, hy]
  simp only [Int.toNat_ofNat]
  refine ⟨trivial, by simp, ?_, ?_⟩
  · intro row hrow
    simp only [List.mem_map] at hrow
    obtain ⟨i, _, rfl⟩ := hrow
    simp
  · intro i j hi hj
    unfold cellAt
    simp [hi, hj, getImagePixelFromRGBA]

/-- Instance of `getImagePixels_square` at a 2x2 image. -/
theorem getImagePixels_square_witness :
    (image2x2.maxX = ((2 : Nat) : Int) ∧ image2x2.maxY = ((2 : Nat) : Int)) ∧
    (getImagePixels image2x2 none).2 = none ∧
    (getImagePixels image2x2 none).1.length = 2 ∧
    (∀ row ∈ (getImagePixels image2x2 none).1, row.length = 2) ∧
    ∀ i j : Nat, i < 2 → j < 2 →
      cellAt (getImagePixels image2x2 none).1 i j =
        some ⟨(((image2x2.At i j).r / 257 : Nat) : Int),
              (((image2x2.At i j).g / 257 : Nat) : Int),
              (((image2x2.At i j).b / 257 : Nat) : Int),
              (((image2x2.At i j).a / 257 : Nat) : Int)⟩ :=
  ⟨by decide, getImagePixels_square image2x2 2 (by decide) (by decide)⟩

end ImageBlur
